import Mathlib

/-!
Verification of the deadbranch branch-cleaning tool.

Strings from the Rust source are modelled as lists of characters
(`Str := List Char`); files are modelled as their list of physical lines.
Fallible external actions (git subprocess calls, filesystem writes) are
modelled by explicit environment records supplying their outcomes.
-/

namespace Deadbranch

/-- Character-list strings; Rust `&str` / `String` values. -/
abbrev Str := List Char

/-- Coerce a Lean string literal to the character-list model. -/
def strL (s : String) : Str := s.toList

/-- Length of dropWhile never exceeds the original length (helper). -/
theorem length_dropWhile_le (p : Char → Bool) (l : Str) :
    (l.dropWhile p).length ≤ l.length := by
  induction l with
  | nil => simp [List.dropWhile]
  | cons c r ih =>
    by_cases h : p c
    · simp only [List.dropWhile, h]
      exact le_trans ih (Nat.le_succ _)
    · simp only [List.dropWhile, h]
      exact le_refl _

/-- Accumulator loop for `splitWs`; the first argument is the current
in-progress token, reversed. -/
def splitWsAux : Str → Str → List Str
  | w, [] => if w.isEmpty then [] else [w.reverse]
  | w, c :: rest =>
    if c.isWhitespace then
      if w.isEmpty then splitWsAux [] rest
      else w.reverse :: splitWsAux [] rest
    else splitWsAux (c :: w) rest

/-- Models Rust `str::split_whitespace`: maximal runs of non-whitespace
characters, in order, with no empty tokens. -/
def splitWs (s : Str) : List Str := splitWsAux [] s

/-- Models Rust `str::split(sep)`: always returns one more piece than the
number of separator occurrences; pieces may be empty. -/
def splitSep (sep : Char) : Str → List Str
  | [] => [[]]
  | c :: rest =>
    if c = sep then [] :: splitSep sep rest
    else
      match splitSep sep rest with
      | p :: ps => (c :: p) :: ps
      | [] => [[c]]

/-- Models Rust `s.strip_prefix(pre).unwrap_or(s)`. -/
def stripPrefixOr (pre s : Str) : Str :=
  if pre.isPrefixOf s then s.drop pre.length else s

/-- Models Rust `line.trim().is_empty()`. -/
def isBlank (s : Str) : Bool := s.all Char.isWhitespace

/-- Models Rust `str::trim`. -/
def trimStr (s : Str) : Str :=
  ((s.dropWhile Char.isWhitespace).reverse.dropWhile Char.isWhitespace).reverse

/-- Decimal rendering of a natural number, as Rust `format!` renders usize. -/
def natStr (n : Nat) : Str := (Nat.repr n).toList

/-- The Branch record of src/branch.rs. `last_commit_date` is the unix
timestamp in seconds of the last commit (chrono DateTime modelled as Int). -/
structure Branch where
  name : Str
  age_days : Int
  is_merged : Bool
  is_remote : Bool
  last_commit_sha : Str
  last_commit_date : Int
deriving DecidableEq, Repr

/-- Branch::short_name: strips the leading "origin/" for remote branches. -/
def Branch.short_name (b : Branch) : Str :=
  if b.is_remote then stripPrefixOr (strL "origin/") b.name else b.name

/-- Branch::is_protected: exact match of short_name against the list. -/
def Branch.is_protected (b : Branch) (protected_branches : List Str) : Bool :=
  protected_branches.any (fun p => p == b.short_name)

/-- Models Rust `pattern.split('*')` as used by Branch::glob_match. -/
def splitStar (pattern : Str) : List Str := splitSep '*' pattern

/-- Models the `remaining.find(part)` + reslice step of Branch::glob_match:
returns the remainder of the text after the leftmost occurrence of `part`,
or none when `part` does not occur. -/
def findDrop (part : Str) : Str → Option Str
  | [] => if part.isPrefixOf [] then some (([] : Str).drop part.length) else none
  | c :: rs =>
    if part.isPrefixOf (c :: rs) then some ((c :: rs).drop part.length)
    else findDrop part rs

/-- The indexed loop of Branch::glob_match. `isFirst` is true exactly for the
part at index 0; the part at index `parts.len() - 1` is the one whose tail of
the list is empty. Empty parts are skipped. -/
def globLoop (isFirst : Bool) (parts : List Str) (remaining : Str) : Bool :=
  match parts with
  | [] => true
  | part :: rest =>
    if part.isEmpty then globLoop false rest remaining
    else if isFirst then
      if part.isPrefixOf remaining then
        globLoop false rest (remaining.drop part.length)
      else false
    else if rest.isEmpty then
      if part.isSuffixOf remaining then globLoop false rest [] else false
    else
      match findDrop part remaining with
      | some r => globLoop false rest r
      | none => false

/-- Branch::glob_match of src/branch.rs: split on '*'; a single part means
no wildcard (exact match); otherwise run the anchored greedy loop. -/
def glob_match (pattern text : Str) : Bool :=
  let parts := splitStar pattern
  if parts.length = 1 then pattern == text
  else globLoop true parts text

/-- Branch::matches_exclude_pattern. -/
def Branch.matches_exclude_pattern (b : Branch) (patterns : List Str) : Bool :=
  patterns.any (fun pat => glob_match pat b.short_name)

/-- BranchFilter of src/branch.rs. `min_age_days` is the Rust u32. -/
structure BranchFilter where
  min_age_days : Nat
  local_only : Bool
  remote_only : Bool
  merged_only : Bool
  protected_branches : List Str
  exclude_patterns : List Str

/-- BranchFilter::matches, with the checks in source order. -/
def BranchFilter.matches (f : BranchFilter) (b : Branch) : Bool :=
  if b.age_days < (f.min_age_days : Int) then false
  else if f.local_only && b.is_remote then false
  else if f.remote_only && !b.is_remote then false
  else if f.merged_only && !b.is_merged then false
  else if b.is_protected f.protected_branches then false
  else if b.matches_exclude_pattern f.exclude_patterns then false
  else true

/-- The comparator passed to `sort_by` in sort_branches: unmerged before
merged, then ascending age_days. -/
def cmpBranch (a b : Branch) : Ordering :=
  match a.is_merged, b.is_merged with
  | false, true => .lt
  | true, false => .gt
  | _, _ => compare a.age_days b.age_days

/-- Stable insertion: the new element (which came later in the input) is
placed after every element it does not strictly precede. -/
def insertStable (x : Branch) : List Branch → List Branch
  | [] => [x]
  | y :: ys =>
    if cmpBranch x y = .lt then x :: y :: ys
    else y :: insertStable x ys

/-- sort_branches of src/branch.rs. Rust `slice::sort_by` is a stable sort
by the comparator; modelled as stable insertion sort with `cmpBranch`. -/
def sort_branches (l : List Branch) : List Branch :=
  l.foldl (fun acc b => insertStable b acc) []

/-! Specification of the glob matcher: the anchored regular expression
obtained from the pattern by escaping every non-star character and replacing
each star with a dot-star. -/

/-- Matching of the anchored regular expression built from a pattern: a
non-star character matches exactly itself, a star matches any (possibly
empty) substring, and the whole text must be consumed. -/
def RegexMatch : Str → Str → Prop
  | [], t => t = []
  | c :: ps, t =>
    if c = '*' then ∃ w r, t = w ++ r ∧ RegexMatch ps r
    else ∃ r, t = c :: r ∧ RegexMatch ps r

/-- Matching of the star-separated parts of a pattern: the text decomposes
as the parts in order with arbitrary gaps between them, anchored at both
ends. -/
def SpecMatch : List Str → Str → Prop
  | [], t => t = []
  | [p], t => t = p
  | p :: ps, t => ∃ w r, t = p ++ w ++ r ∧ SpecMatch ps r

/-- Matching for the tail of the loop (all parts past index 0): a leading
gap is allowed before every part, and the last part is anchored at the end. -/
def TailSpec : List Str → Str → Prop
  | [], _ => True
  | [p], r => ∃ w, r = w ++ p
  | p :: ps, r => ∃ w r', r = w ++ p ++ r' ∧ TailSpec ps r'

theorem splitSep_ne_nil (sep : Char) (s : Str) : splitSep sep s ≠ [] := by
  cases s with
  | nil => simp [splitSep]
  | cons c rest =>
    simp only [splitSep]
    by_cases h : c = sep
    · simp [h]
    · simp only [if_neg h]
      cases hr : splitSep sep rest with
      | nil => simp
      | cons p ps => simp

theorem splitStar_singleton {p q : Str} (h : splitStar p = [q]) : q = p := by
  induction p generalizing q with
  | nil =>
    simp only [splitStar, splitSep, List.cons.injEq, and_true] at h
    exact h.symm ▸ rfl
  | cons c rest ih =>
    by_cases hc : c = '*'
    · exfalso
      simp only [splitStar, splitSep, if_pos hc] at h
      have := splitSep_ne_nil '*' rest
      simp at h
      exact this h.2
    · simp only [splitStar, splitSep, if_neg hc] at h
      cases hr : splitSep '*' rest with
      | nil => exact absurd hr (splitSep_ne_nil '*' rest)
      | cons p0 ps =>
        rw [hr] at h
        obtain ⟨h1, h2⟩ := List.cons.injEq .. ▸ h
        have : splitStar rest = [p0] := by
          rw [splitStar, hr, h2]
        have := ih this
        simp [← h1, this]

theorem findDrop_sound {p : Str} : ∀ {r s : Str}, findDrop p r = some s →
    ∃ w, r = w ++ p ++ s := by
  intro r
  induction r with
  | nil =>
    intro s h
    simp only [findDrop] at h
    by_cases hp : p.isPrefixOf ([] : Str)
    · rw [if_pos hp] at h
      have hp' : p <+: ([] : Str) := List.isPrefixOf_iff_prefix.mp hp
      have : p = [] := List.prefix_nil.mp hp'
      simp only [Option.some.injEq] at h
      exact ⟨[], by simp [this, ← h]⟩
    · rw [if_neg hp] at h; exact absurd h (by simp)
  | cons c rs ih =>
    intro s h
    simp only [findDrop] at h
    by_cases hp : p.isPrefixOf (c :: rs)
    · rw [if_pos hp] at h
      obtain ⟨z, hz⟩ := List.isPrefixOf_iff_prefix.mp hp
      simp only [Option.some.injEq] at h
      refine ⟨[], ?_⟩
      have : (c :: rs).drop p.length = z := by
        rw [← hz, List.drop_left]
      rw [← h, this, List.nil_append, hz]
    · rw [if_neg hp] at h
      obtain ⟨w, hw⟩ := ih h
      exact ⟨c :: w, by simp [hw]⟩

theorem findDrop_complete {p : Str} : ∀ (w : Str) {r r' : Str},
    r = w ++ p ++ r' → ∃ s, findDrop p r = some s ∧ r' <:+ s := by
  intro w
  induction w with
  | nil =>
    intro r r' hr
    have hp : p.isPrefixOf r := List.isPrefixOf_iff_prefix.mpr ⟨r', by simp [hr]⟩
    refine ⟨r.drop p.length, ?_, ?_⟩
    · cases r with
      | nil => simp only [findDrop, if_pos hp]
      | cons c rs => simp only [findDrop, if_pos hp]
    · rw [hr]
      simp only [List.nil_append, List.drop_left]
      exact List.suffix_refl _
  | cons c w' ih =>
    intro r r' hr
    have hr' : r = c :: (w' ++ p ++ r') := by simp [hr]
    by_cases hp : p.isPrefixOf r
    · refine ⟨r.drop p.length, ?_, ?_⟩
      · cases r with
        | nil => simp only [findDrop, if_pos hp]
        | cons d rs => simp only [findDrop, if_pos hp]
      · have hlen : p.length ≤ ((c :: w') ++ p).length := by
          simp only [List.length_append, List.length_cons]
          omega
        have : r = ((c :: w') ++ p) ++ r' := by simp [hr]
        rw [this, List.drop_append_of_le_length hlen]
        exact List.suffix_append _ _
    · obtain ⟨s, hs, hsuf⟩ := ih (r := w' ++ p ++ r') rfl
      refine ⟨s, ?_, hsuf⟩
      rw [hr']
      simp only [findDrop]
      rw [hr'] at hp
      rw [if_neg hp]
      exact hs

theorem TailSpec_suffix {ps : List Str} {r r' : Str} (hsuf : r' <:+ r)
    (h : TailSpec ps r') : TailSpec ps r := by
  obtain ⟨w0, hw0⟩ := hsuf
  match ps with
  | [] => trivial
  | [p] =>
    obtain ⟨w, hw⟩ := h
    exact ⟨w0 ++ w, by simp [← hw0, hw]⟩
  | p :: q :: qs =>
    obtain ⟨w, r1, hw, ht⟩ := h
    exact ⟨w0 ++ w, r1, by simp [← hw0, hw], ht⟩

theorem globLoop_tail : ∀ (l : List Str) (r : Str),
    globLoop false l r = true ↔ TailSpec l r := by
  intro l
  induction l with
  | nil => intro r; simp [globLoop, TailSpec]
  | cons part rest ih =>
    intro r
    by_cases hpe : part = []
    · subst hpe
      simp only [globLoop, List.isEmpty_nil, if_true]
      rw [ih r]
      cases rest with
      | nil =>
        simp only [TailSpec]
        exact ⟨fun _ => ⟨r, by simp⟩, fun _ => trivial⟩
      | cons q qs =>
        simp only [TailSpec, List.nil_append]
        constructor
        · intro h; exact ⟨[], r, by simp, h⟩
        · rintro ⟨w, r1, hr, ht⟩
          exact TailSpec_suffix ⟨w, by simpa using hr.symm⟩ ht
    · have hne : part.isEmpty = false := by
        cases part with
        | nil => exact absurd rfl hpe
        | cons a b => rfl
      cases rest with
      | nil =>
        simp only [globLoop, hne, Bool.false_eq_true, if_false, List.isEmpty_nil,
          if_true, TailSpec]
        by_cases hs : part.isSuffixOf r
        · obtain ⟨w, hw⟩ := List.isSuffixOf_iff_suffix.mp hs
          simp only [hs, if_true]
          constructor
          · intro _
            exact ⟨w, hw.symm⟩
          · intro _
            trivial
        · simp only [hs, Bool.false_eq_true, if_false]
          constructor
          · intro h; exact absurd h (by simp)
          · rintro ⟨w, hw⟩
            exact absurd (List.isSuffixOf_iff_suffix.mpr ⟨w, hw.symm⟩) hs
      | cons q qs =>
        simp only [globLoop, hne, Bool.false_eq_true, if_false, List.isEmpty_cons,
          TailSpec]
        constructor
        · intro h
          cases hfd : findDrop part r with
          | none => rw [hfd] at h; exact absurd h (by simp)
          | some s =>
            rw [hfd] at h
            obtain ⟨w, hw⟩ := findDrop_sound hfd
            exact ⟨w, s, hw, (ih s).mp h⟩
        · rintro ⟨w, r1, hr, ht⟩
          obtain ⟨s, hfd, hsuf⟩ := findDrop_complete w hr
          rw [hfd]
          exact (ih s).mpr (TailSpec_suffix hsuf ht)

theorem TailSpec_iff_SpecMatch : ∀ (ps : List Str), ps ≠ [] → ∀ (r : Str),
    (TailSpec ps r ↔ ∃ w r', r = w ++ r' ∧ SpecMatch ps r') := by
  intro ps
  induction ps with
  | nil => intro h; exact absurd rfl h
  | cons p rest ih =>
    intro _ r
    cases rest with
    | nil =>
      simp only [TailSpec, SpecMatch]
      constructor
      · rintro ⟨w, hw⟩; exact ⟨w, p, hw, rfl⟩
      · rintro ⟨w, r', hw, hr'⟩; exact ⟨w, by rw [hw, hr']⟩
    | cons q qs =>
      simp only [TailSpec, SpecMatch]
      constructor
      · rintro ⟨w, r1, hr, ht⟩
        obtain ⟨w2, r2, hr2, hs2⟩ := (ih (by simp) r1).mp ht
        exact ⟨w, p ++ w2 ++ r2, by rw [hr, hr2]; simp, w2, r2, by simp, hs2⟩
      · rintro ⟨w, r0, hr, w', r', hr0, hs⟩
        refine ⟨w, w' ++ r', by rw [hr, hr0]; simp, ?_⟩
        exact (ih (by simp) (w' ++ r')).mpr ⟨w', r', rfl, hs⟩

theorem globLoop_cons_empty (isF : Bool) (rest : List Str) (r : Str) :
    globLoop isF ([] :: rest) r = globLoop false rest r := rfl

theorem globLoop_true_cons (p0 : Str) (rest : List Str) (t : Str)
    (hne : p0.isEmpty = false) :
    globLoop true (p0 :: rest) t =
      if p0.isPrefixOf t then globLoop false rest (t.drop p0.length)
      else false := by
  conv_lhs => rw [globLoop]
  simp only [hne, Bool.false_eq_true, if_false, if_true]

theorem globLoop_first (p0 : Str) (rest : List Str) (hrest : rest ≠ []) (t : Str) :
    globLoop true (p0 :: rest) t = true ↔ SpecMatch (p0 :: rest) t := by
  obtain ⟨q, qs, rfl⟩ : ∃ q qs, rest = q :: qs := by
    cases rest with
    | nil => exact absurd rfl hrest
    | cons q qs => exact ⟨q, qs, rfl⟩
  by_cases hpe : p0 = []
  · subst hpe
    rw [globLoop_cons_empty, globLoop_tail,
      TailSpec_iff_SpecMatch (q :: qs) (by simp) t]
    simp only [SpecMatch]
    constructor
    · rintro ⟨w, r', hw, hs⟩; exact ⟨w, r', by simpa using hw, hs⟩
    · rintro ⟨w, r', hw, hs⟩; exact ⟨w, r', by simpa using hw, hs⟩
  · have hne : p0.isEmpty = false := by
      cases p0 with
      | nil => exact absurd rfl hpe
      | cons a b => rfl
    rw [globLoop_true_cons p0 (q :: qs) t hne]
    simp only [SpecMatch]
    by_cases hp : p0.isPrefixOf t
    · obtain ⟨z, hz⟩ := List.isPrefixOf_iff_prefix.mp hp
      have hdrop : t.drop p0.length = z := by rw [← hz, List.drop_left]
      rw [if_pos hp, globLoop_tail, TailSpec_iff_SpecMatch (q :: qs) (by simp),
        hdrop]
      constructor
      · rintro ⟨w, r', hw, hs⟩
        exact ⟨w, r', by rw [← hz, hw]; simp, hs⟩
      · rintro ⟨w, r', hw, hs⟩
        refine ⟨w, r', ?_, hs⟩
        have : p0 ++ z = p0 ++ (w ++ r') := by rw [hz, hw]; simp
        exact (List.append_cancel_left this)
    · rw [if_neg hp]
      constructor
      · intro h; exact absurd h (by simp)
      · rintro ⟨w, r', hw, _⟩
        have : p0 <+: t := ⟨w ++ r', by rw [hw]; simp⟩
        exact absurd (List.isPrefixOf_iff_prefix.mpr this) (by simp [hp])

theorem glob_match_iff_SpecMatch (pattern text : Str) :
    glob_match pattern text = true ↔ SpecMatch (splitStar pattern) text := by
  unfold glob_match
  by_cases hlen : (splitStar pattern).length = 1
  · obtain ⟨q, hq⟩ : ∃ q, splitStar pattern = [q] := by
      cases h : splitStar pattern with
      | nil => rw [h] at hlen; simp at hlen
      | cons a l =>
        rw [h] at hlen
        simp only [List.length_cons, Nat.add_left_eq_self, List.length_eq_zero] at hlen
        exact ⟨a, by rw [hlen]⟩
    have hqp : q = pattern := splitStar_singleton hq
    subst hqp
    rw [if_pos hlen, hq]
    simp only [SpecMatch]
    rw [beq_iff_eq]
    exact ⟨fun h => h.symm, fun h => h.symm⟩
  · obtain ⟨p0, rest, hps⟩ : ∃ p0 rest, splitStar pattern = p0 :: rest := by
      cases h : splitStar pattern with
      | nil => exact absurd h (splitSep_ne_nil '*' pattern)
      | cons a l => exact ⟨a, l, rfl⟩
    have hrest : rest ≠ [] := by
      intro hr
      rw [hr] at hps
      rw [hps] at hlen
      simp at hlen
    rw [if_neg hlen, hps]
    exact globLoop_first p0 rest hrest text

theorem RegexMatch_iff_SpecMatch : ∀ (p t : Str),
    (RegexMatch p t ↔ SpecMatch (splitStar p) t) := by
  intro p
  induction p with
  | nil =>
    intro t
    simp [RegexMatch, splitStar, splitSep, SpecMatch]
  | cons c ps ih =>
    intro t
    obtain ⟨q, qs, hq⟩ : ∃ q qs, splitStar ps = q :: qs := by
      cases h : splitStar ps with
      | nil => exact absurd h (splitSep_ne_nil '*' ps)
      | cons a l => exact ⟨a, l, rfl⟩
    by_cases hc : c = '*'
    · subst hc
      have hsplit : splitStar ('*' :: ps) = [] :: splitStar ps := by
        simp [splitStar, splitSep]
      rw [hsplit, hq]
      simp only [RegexMatch, if_pos rfl, SpecMatch, List.nil_append]
      constructor
      · rintro ⟨w, r, hw, hr⟩
        exact ⟨w, r, by simpa using hw, ((ih r).mp hr) |> (hq ▸ ·)⟩
      · rintro ⟨w, r, hw, hr⟩
        exact ⟨w, r, by simpa using hw, (ih r).mpr (by rw [hq]; exact hr)⟩
    · have hsplit : splitStar (c :: ps) = (c :: q) :: qs := by
        simp only [splitStar, splitSep, if_neg hc]
        rw [show splitSep '*' ps = q :: qs from hq]
      rw [hsplit]
      simp only [RegexMatch, if_neg hc]
      cases qs with
      | nil =>
        simp only [SpecMatch]
        constructor
        · rintro ⟨r, hr, hm⟩
          have : SpecMatch [q] r := by rw [← hq]; exact (ih r).mp hm
          simp only [SpecMatch] at this
          rw [hr, this]
        · intro h
          refine ⟨q, h, ?_⟩
          exact (ih q).mpr (by rw [hq]; simp [SpecMatch])
      | cons q2 qs2 =>
        simp only [SpecMatch]
        constructor
        · rintro ⟨r, hr, hm⟩
          have : SpecMatch (q :: q2 :: qs2) r := by rw [← hq]; exact (ih r).mp hm
          simp only [SpecMatch] at this
          obtain ⟨w, r', hw, hs⟩ := this
          exact ⟨w, r', by rw [hr, hw]; simp, hs⟩
        · rintro ⟨w, r', hw, hs⟩
          refine ⟨q ++ w ++ r', by simpa using hw, ?_⟩
          refine (ih _).mpr ?_
          rw [hq]
          simp only [SpecMatch]
          exact ⟨w, r', rfl, hs⟩

/-- C8: for every pattern P and text T, glob_match(P, T) is true iff T
matches the anchored regular expression obtained from P by escaping every
non-star byte and replacing each star with dot-star: star matches any
(possibly empty) substring, no other character is special, matching is
case-sensitive and anchored at both ends, and a star-free pattern matches
only the exactly equal text. -/
theorem glob_match_correct (pattern text : Str) :
    glob_match pattern text = true ↔ RegexMatch pattern text :=
  (glob_match_iff_SpecMatch pattern text).trans
    (RegexMatch_iff_SpecMatch pattern text).symm

/-! Sorting properties. -/

theorem cmpBranch_gt_iff (a b : Branch) :
    cmpBranch a b = .gt ↔ cmpBranch b a = .lt := by
  unfold cmpBranch
  cases ha : a.is_merged <;> cases hb : b.is_merged
  · rw [compare_gt_iff_gt, compare_lt_iff_lt]
  · simp
  · simp
  · rw [compare_gt_iff_gt, compare_lt_iff_lt]

theorem cmpBranch_lt_trans_not_gt {x y z : Branch} (h1 : cmpBranch x y = .lt)
    (h2 : cmpBranch y z ≠ .gt) : cmpBranch x z ≠ .gt := by
  unfold cmpBranch at h1 h2 ⊢
  cases hx : x.is_merged <;> cases hy : y.is_merged <;> cases hz : z.is_merged <;>
    simp only [hx, hy, hz] at h1 h2 ⊢ <;>
    first
      | exact absurd h1 (by decide)
      | exact absurd rfl h2
      | decide
      | (rw [compare_lt_iff_lt] at h1
         rw [Ne, compare_gt_iff_gt] at h2 ⊢
         omega)

theorem insertStable_perm (x : Branch) (l : List Branch) :
    (insertStable x l).Perm (x :: l) := by
  induction l with
  | nil => exact List.Perm.refl _
  | cons y ys ih =>
    unfold insertStable
    by_cases h : cmpBranch x y = .lt
    · rw [if_pos h]
    · rw [if_neg h]
      exact (ih.cons y).trans (List.Perm.swap x y ys)

theorem mem_insertStable {x z : Branch} {l : List Branch}
    (h : z ∈ insertStable x l) : z = x ∨ z ∈ l :=
  List.mem_cons.mp ((insertStable_perm x l).mem_iff.mp h)

theorem insertStable_pairwise (x : Branch) (l : List Branch)
    (hl : l.Pairwise (fun a b => cmpBranch a b ≠ .gt)) :
    (insertStable x l).Pairwise (fun a b => cmpBranch a b ≠ .gt) := by
  induction l with
  | nil => simp [insertStable]
  | cons y ys ih =>
    rw [List.pairwise_cons] at hl
    obtain ⟨hy, hys⟩ := hl
    unfold insertStable
    by_cases h : cmpBranch x y = .lt
    · rw [if_pos h]
      refine List.Pairwise.cons ?_ (List.Pairwise.cons hy hys)
      intro z hz
      rcases List.mem_cons.mp hz with rfl | hz
      · rw [h]
        decide
      · exact cmpBranch_lt_trans_not_gt h (hy z hz)
    · rw [if_neg h]
      refine List.Pairwise.cons ?_ (ih hys)
      intro z hz
      rcases mem_insertStable hz with rfl | hz
      · rw [Ne, cmpBranch_gt_iff]; exact h
      · exact hy z hz

theorem foldl_insertStable_perm (l acc : List Branch) :
    (l.foldl (fun a b => insertStable b a) acc).Perm (acc ++ l) := by
  induction l generalizing acc with
  | nil => simp
  | cons b l ih =>
    simp only [List.foldl_cons]
    exact (ih _).trans
      (((insertStable_perm b acc).append_right l).trans List.perm_middle.symm)

theorem foldl_insertStable_pairwise (l acc : List Branch)
    (hacc : acc.Pairwise (fun a b => cmpBranch a b ≠ .gt)) :
    (l.foldl (fun a b => insertStable b a) acc).Pairwise
      (fun a b => cmpBranch a b ≠ .gt) := by
  induction l generalizing acc with
  | nil => exact hacc
  | cons b l ih =>
    simp only [List.foldl_cons]
    exact ih _ (insertStable_pairwise b acc hacc)

/-- Tied pair used to exhibit the stable (non-lexicographic) tie behaviour
of sort_branches: same merge status and age, names out of alphabetical
order. -/
def tieB : Branch := ⟨strL "b", 10, false, false, strL "s", 0⟩

/-- Second element of the tied pair; its name alphabetically precedes
tieB's. -/
def tieA : Branch := ⟨strL "a", 10, false, false, strL "s", 0⟩

/-- C7 counterexample: two branches tied on merge status and age_days are
kept in input order by sort_branches, not reordered lexicographically by
name: with names "b" then "a" in the input, the output is still "b" then
"a", not the alphabetical "a" then "b" the claim requires. -/
theorem sort_branches_tie_not_lex :
    sort_branches [tieB, tieA] = [tieB, tieA] ∧
    tieB.name ≠ tieA.name ∧
    tieB.is_merged = tieA.is_merged ∧
    tieB.age_days = tieA.age_days ∧
    sort_branches [tieB, tieA] ≠ [tieA, tieB] := by decide

theorem cmpBranch_self (b : Branch) : cmpBranch b b = .eq := by
  unfold cmpBranch
  cases hb : b.is_merged <;> exact compare_eq_iff_eq.mpr rfl

theorem cmpBranch_lt_congr {x y z : Branch} (h1 : cmpBranch x y = .lt)
    (hm : z.is_merged = x.is_merged) (ha : z.age_days = x.age_days) :
    cmpBranch z y = .lt := by
  unfold cmpBranch at h1 ⊢
  cases hx : x.is_merged <;> cases hy : y.is_merged <;>
    simp only [hm, ha, hx, hy] at h1 ⊢ <;>
    exact h1

theorem filter_cons_pos (p : Branch → Bool) (x : Branch) (l : List Branch)
    (h : p x = true) : (x :: l).filter p = x :: l.filter p := by
  simp [List.filter_cons, h]

theorem filter_cons_neg (p : Branch → Bool) (x : Branch) (l : List Branch)
    (h : p x = false) : (x :: l).filter p = l.filter p := by
  simp [List.filter_cons, h]

theorem tie_filter_insertStable (x : Branch) (acc : List Branch)
    (m : Bool) (a : Int)
    (hacc : acc.Pairwise (fun p q => cmpBranch p q ≠ .gt)) :
    (insertStable x acc).filter (fun b => b.is_merged == m && b.age_days == a) =
      acc.filter (fun b => b.is_merged == m && b.age_days == a) ++
        (if (x.is_merged == m && x.age_days == a) = true then [x] else []) := by
  induction acc with
  | nil =>
    cases htx : (x.is_merged == m && x.age_days == a) <;>
      simp [insertStable, List.filter, htx]
  | cons y ys ih =>
    rw [List.pairwise_cons] at hacc
    obtain ⟨hy, hys⟩ := hacc
    unfold insertStable
    by_cases hlt : cmpBranch x y = .lt
    · rw [if_pos hlt]
      cases htx : (x.is_merged == m && x.age_days == a) with
      | true =>
        have hclass : ∀ z ∈ y :: ys,
            ¬((z.is_merged == m && z.age_days == a) = true) := by
          intro z hz hzc
          simp only [Bool.and_eq_true, beq_iff_eq] at htx hzc
          have hm' : z.is_merged = x.is_merged := by rw [htx.1, hzc.1]
          have ha' : z.age_days = x.age_days := by rw [htx.2, hzc.2]
          have hzy : cmpBranch z y = .lt := cmpBranch_lt_congr hlt hm' ha'
          rcases List.mem_cons.mp hz with rfl | hz'
          · rw [cmpBranch_self z] at hzy
            exact absurd hzy (by decide)
          · exact (hy z hz') ((cmpBranch_gt_iff y z).mpr hzy)
        rw [filter_cons_pos _ x (y :: ys) htx,
          List.filter_eq_nil_iff.mpr hclass]
        rfl
      | false =>
        rw [filter_cons_neg _ x (y :: ys) htx]
        simp
    · rw [if_neg hlt]
      cases hty : (y.is_merged == m && y.age_days == a) with
      | true =>
        rw [filter_cons_pos _ y _ hty, filter_cons_pos _ y _ hty, ih hys,
          List.cons_append]
      | false =>
        rw [filter_cons_neg _ y _ hty, filter_cons_neg _ y _ hty, ih hys]

theorem tie_filter_foldl (l : List Branch) (m : Bool) (a : Int) :
    ∀ acc, acc.Pairwise (fun p q => cmpBranch p q ≠ .gt) →
      (l.foldl (fun ac b => insertStable b ac) acc).filter
          (fun b => b.is_merged == m && b.age_days == a) =
        acc.filter (fun b => b.is_merged == m && b.age_days == a) ++
          l.filter (fun b => b.is_merged == m && b.age_days == a) := by
  induction l with
  | nil => intro acc _; simp
  | cons b l ih =>
    intro acc hacc
    simp only [List.foldl_cons]
    rw [ih _ (insertStable_pairwise b acc hacc),
      tie_filter_insertStable b acc m a hacc]
    cases htb : (b.is_merged == m && b.age_days == a) with
    | true =>
      rw [filter_cons_pos _ b l htb]
      simp [List.append_assoc]
    | false =>
      rw [filter_cons_neg _ b l htb]
      simp

/-- C7 (amended): sort_branches returns a permutation of its input in which
every unmerged branch precedes every merged branch and, within equal merge
status, age_days is ascending; branches tied on both merge status and
age_days keep their original relative order (the sort is stable), they are
not reordered by name. Stability is stated as tie-class preservation: for
every merge status and age, the subsequence of branches with exactly that
merge status and age is the same, in the same order, in input and output —
so any two tied branches appear in their original relative order. -/
theorem sort_branches_order (l : List Branch) :
    (sort_branches l).Perm l ∧
    (sort_branches l).Pairwise (fun a b =>
      (a.is_merged = true → b.is_merged = true) ∧
      (a.is_merged = b.is_merged → a.age_days ≤ b.age_days)) ∧
    (∀ (m : Bool) (a : Int),
      (sort_branches l).filter (fun b => b.is_merged == m && b.age_days == a) =
        l.filter (fun b => b.is_merged == m && b.age_days == a)) := by
  refine ⟨?_, ?_, ?_⟩
  · simpa using foldl_insertStable_perm l []
  · have hp := foldl_insertStable_pairwise l [] (by simp)
    refine hp.imp ?_
    intro a b hab
    constructor
    · intro hma
      cases hmb : b.is_merged
      · exact absurd (by simp [cmpBranch, hma, hmb]) hab
      · rfl
    · intro heq
      have hcmp : compare a.age_days b.age_days ≠ .gt := by
        cases hma : a.is_merged <;>
          (rw [hma] at heq; simpa [cmpBranch, hma, ← heq] using hab)
      exact le_of_not_lt (fun hlt => hcmp (compare_gt_iff_gt.mpr hlt))
  · intro m a
    unfold sort_branches
    rw [tie_filter_foldl l m a [] (by simp)]
    rfl

/-! Filter claims. -/

/-- Membership in sort_branches output is membership in the input. -/
theorem mem_sort_branches {b : Branch} {l : List Branch} :
    b ∈ sort_branches l ↔ b ∈ l := by
  unfold sort_branches
  rw [(foldl_insertStable_perm l []).mem_iff]
  simp

/-- If the filter demands merged branches, every branch it accepts is
merged. -/
theorem matches_merged {f : BranchFilter} {b : Branch} (hm : f.merged_only = true)
    (h : f.matches b = true) : b.is_merged = true := by
  cases hb : b.is_merged
  · simp only [BranchFilter.matches, hm, hb, Bool.not_false, Bool.and_self,
      if_true, ite_self] at h
    exact h
  · rfl

/-- C10: a branch whose age_days is negative (last commit in the future)
never passes any BranchFilter — the unsigned minimum age, cast to the
signed age type, is at least zero — and therefore never appears in a
filtered candidate list. -/
theorem future_branch_never_matches (f : BranchFilter) (b : Branch)
    (h : b.age_days < 0) :
    f.matches b = false ∧
    ∀ bs : List Branch, b ∉ bs.filter (fun x => f.matches x) := by
  have hm : f.matches b = false := by
    unfold BranchFilter.matches
    rw [if_pos (lt_of_lt_of_le h (Nat.cast_nonneg _))]
  refine ⟨hm, ?_⟩
  intro bs hmem
  rw [List.mem_filter] at hmem
  rw [hm] at hmem
  exact absurd hmem.2 (by simp)

/-- Witness for the future-dated-branch claim at a concrete filter with
min_age_days = 0 and a branch of age -1. -/
theorem future_branch_never_matches_witness :
    (-1 : Int) < 0 ∧
    (BranchFilter.mk 0 false false false [] []).matches
      ⟨strL "f", -1, true, false, strL "s", 0⟩ = false :=
  ⟨by decide,
    (future_branch_never_matches (BranchFilter.mk 0 false false false [] [])
      ⟨strL "f", -1, true, false, strL "s", 0⟩ (by decide)).1⟩

/-- The filter cmd_clean builds (src/main.rs): merged_only is
merged || not force; the other fields come from the CLI and config. -/
def cmdCleanFilter (min_age : Nat) (local_only remote_only merged force : Bool)
    (protected_branches exclude_patterns : List Str) : BranchFilter :=
  { min_age_days := min_age
    local_only := local_only
    remote_only := remote_only
    merged_only := merged || !force
    protected_branches := protected_branches
    exclude_patterns := exclude_patterns }

/-- Candidate selection of cmd_clean: filter all branches, then sort. -/
def cmdCleanCandidates (f : BranchFilter) (all : List Branch) : List Branch :=
  sort_branches (all.filter (fun b => f.matches b))

/-- Local-phase candidates of cmd_clean: the non-remote candidates,
sorted again. -/
def cmdCleanLocal (f : BranchFilter) (all : List Branch) : List Branch :=
  sort_branches ((cmdCleanCandidates f all).filter (fun b => !b.is_remote))

/-- Remote-phase candidates of cmd_clean: the remote candidates, sorted
again. -/
def cmdCleanRemote (f : BranchFilter) (all : List Branch) : List Branch :=
  sort_branches ((cmdCleanCandidates f all).filter (fun b => b.is_remote))

/-- C3: when force is false the clean filter has merged_only = true
regardless of the merged flag, and consequently no unmerged branch is among
the deletion candidates of either phase, for every repository state and
configuration. -/
theorem clean_safety_interlock (min_age : Nat) (lo ro merged force : Bool)
    (prot excl : List Str) (all : List Branch) (hf : force = false) :
    (cmdCleanFilter min_age lo ro merged force prot excl).merged_only = true ∧
    (∀ b ∈ cmdCleanLocal (cmdCleanFilter min_age lo ro merged force prot excl) all,
      b.is_merged = true) ∧
    (∀ b ∈ cmdCleanRemote (cmdCleanFilter min_age lo ro merged force prot excl) all,
      b.is_merged = true) := by
  subst hf
  have hmo : (cmdCleanFilter min_age lo ro merged false prot excl).merged_only = true := by
    simp [cmdCleanFilter]
  refine ⟨hmo, ?_, ?_⟩
  · intro b hb
    rw [cmdCleanLocal, mem_sort_branches, List.mem_filter] at hb
    have hc := hb.1
    rw [cmdCleanCandidates, mem_sort_branches, List.mem_filter] at hc
    exact matches_merged hmo hc.2
  · intro b hb
    rw [cmdCleanRemote, mem_sort_branches, List.mem_filter] at hb
    have hc := hb.1
    rw [cmdCleanCandidates, mem_sort_branches, List.mem_filter] at hc
    exact matches_merged hmo hc.2

/-- Witness for the safety interlock at a concrete configuration: one
merged branch as candidate, force false. -/
theorem clean_safety_interlock_witness :
    (false = false) ∧
    (cmdCleanFilter 0 false false false false [] []).merged_only = true :=
  ⟨rfl, (clean_safety_interlock 0 false false false false [] []
    [⟨strL "m", 40, true, false, strL "s", 0⟩] rfl).1⟩

/-! Backup manifest writer (create_backup_file of src/main.rs) and parser
(parse_backup_file of src/backup.rs). A manifest file is modelled as its
list of physical lines. -/

/-- Branch entry parsed from a manifest line (src/backup.rs). -/
structure BackupBranchEntry where
  name : Str
  commit_sha : Str
deriving DecidableEq, Repr

/-- Skipped/corrupted manifest line with its 1-based number. -/
structure SkippedLine where
  line_number : Nat
  content : Str
deriving DecidableEq, Repr

/-- Result of parsing a manifest (src/backup.rs). -/
structure ParsedBackup where
  entries : List BackupBranchEntry
  skipped_lines : List SkippedLine
deriving DecidableEq, Repr

/-- RestoreError of src/backup.rs; the Other variant keeps only the
message text. -/
inductive RestoreError where
  | branchExists (branch_name : Str)
  | commitNotFound (branch_name commit_sha : Str)
  | branchNotInBackup (branch_name : Str)
      (available_branches : List BackupBranchEntry)
      (skipped_lines : List SkippedLine)
  | noBackupsFound (repo_name : Str)
  | backupCorrupted (message : Str)
  | other (message : Str)
deriving DecidableEq, Repr

/-- Header lines written by create_backup_file, in source order. -/
def backupHeaderLines (created repoName cwd : Str) : List Str :=
  [strL "# deadbranch backup",
   strL "# Created: " ++ created,
   strL "# Repository: " ++ repoName,
   strL "# Working directory: " ++ cwd,
   strL "#",
   strL "# To restore a branch, run the git command shown",
   strL "#",
   []]

/-- Per-branch lines written by create_backup_file: the commented original
name, the restore command, and a blank separator. `shaOf` models
git::get_branch_sha; on failure the recorded short sha is used. -/
def backupEntryLines (shaOf : Str → Option Str) (b : Branch) : List Str :=
  let sha := (shaOf b.name).getD b.last_commit_sha
  let restore_name :=
    if b.is_remote then stripPrefixOr (strL "origin/") b.name else b.name
  [strL "# " ++ b.name,
   strL "git branch " ++ restore_name ++ strL " " ++ sha,
   []]

/-- create_backup_file of src/main.rs, as the list of lines it writes. -/
def create_backup_file_lines (shaOf : Str → Option Str)
    (created repoName cwd : Str) (branches : List Branch) : List Str :=
  backupHeaderLines created repoName cwd ++
    branches.flatMap (backupEntryLines shaOf)

/-- The line loop of parse_backup_file past the header line; `ln` is the
1-based physical number of the current line. Comments and blank lines are
skipped; a well-formed restore command line yields an entry (tokens 2 and 3
of its whitespace split); anything else is recorded as a skipped line. -/
def parseLoop : List Str → Nat → List BackupBranchEntry × List SkippedLine
  | [], _ => ([], [])
  | l :: rest, ln =>
    let res := parseLoop rest (ln + 1)
    if (strL "#").isPrefixOf l || isBlank l then res
    else if (strL "git branch ").isPrefixOf l then
      match splitWs l with
      | _ :: _ :: name :: sha :: _ => (⟨name, sha⟩ :: res.1, res.2)
      | _ => (res.1, ⟨ln, l⟩ :: res.2)
    else (res.1, ⟨ln, l⟩ :: res.2)

/-- parse_backup_file of src/backup.rs over the file's lines: the first
physical line must carry the literal header tag, otherwise the parse fails
with BackupCorrupted; an empty file is also BackupCorrupted. -/
def parse_backup_file (lines : List Str) :
    Except RestoreError ParsedBackup :=
  match lines with
  | [] => .error (.backupCorrupted (strL "Empty or invalid backup file"))
  | l0 :: rest =>
    if (strL "# deadbranch backup").isPrefixOf l0 then
      .ok ⟨(parseLoop rest 2).1, (parseLoop rest 2).2⟩
    else
      .error (.backupCorrupted
        (strL "Invalid header at line 1. Expected '# deadbranch backup', found: '"
          ++ l0 ++ strL "'"))

theorem parseLoop_skip {l : Str} (rest : List Str) (ln : Nat)
    (h : ((strL "#").isPrefixOf l || isBlank l) = true) :
    parseLoop (l :: rest) ln = parseLoop rest (ln + 1) := by
  simp only [parseLoop, h, if_true]

theorem parseLoop_git {l : Str} (rest : List Str) (ln : Nat) {name sha : Str}
    (h1 : ((strL "#").isPrefixOf l || isBlank l) = false)
    (h2 : (strL "git branch ").isPrefixOf l = true)
    (h4 : splitWs l = [strL "git", strL "branch", name, sha]) :
    parseLoop (l :: rest) ln =
      ((⟨name, sha⟩ : BackupBranchEntry) :: (parseLoop rest (ln + 1)).1,
        (parseLoop rest (ln + 1)).2) := by
  simp only [parseLoop, h1, Bool.false_eq_true, if_false, h2, if_true, h4]

theorem splitWsAux_word (w : Str) (hw : ∀ c ∈ w, c.isWhitespace = false) :
    ∀ (acc t : Str), splitWsAux acc (w ++ t) = splitWsAux (w.reverse ++ acc) t := by
  induction w with
  | nil => intro acc t; simp
  | cons c w' ih =>
    intro acc t
    have hc : c.isWhitespace = false := hw c (by simp)
    simp only [List.cons_append, splitWsAux, hc, Bool.false_eq_true, if_false,
      List.append_eq]
    rw [ih (fun d hd => hw d (by simp [hd])) (c :: acc) t]
    congr 1
    simp

theorem splitWs_token (w t : Str) (hw : w ≠ [])
    (hfree : ∀ c ∈ w, c.isWhitespace = false) :
    splitWs (w ++ ' ' :: t) = w :: splitWs t := by
  unfold splitWs
  rw [splitWsAux_word w hfree [] (' ' :: t), List.append_nil]
  have hne : w.reverse.isEmpty = false := by
    cases hr : w.reverse with
    | nil => exact absurd (List.reverse_eq_nil_iff.mp hr) hw
    | cons a as => rfl
  simp only [splitWsAux, show (' ').isWhitespace = true from rfl, if_true, hne,
    Bool.false_eq_true, if_false, List.reverse_reverse]

theorem splitWs_last (w : Str) (hw : w ≠ [])
    (hfree : ∀ c ∈ w, c.isWhitespace = false) :
    splitWs w = [w] := by
  unfold splitWs
  rw [show splitWsAux [] w = splitWsAux [] (w ++ []) by rw [List.append_nil],
    splitWsAux_word w hfree [] [], List.append_nil]
  have hne : w.reverse.isEmpty = false := by
    cases hr : w.reverse with
    | nil => exact absurd (List.reverse_eq_nil_iff.mp hr) hw
    | cons a as => rfl
  simp only [splitWsAux, hne, Bool.false_eq_true, if_false, List.reverse_reverse]

/-- Hexadecimal digit characters; used to state the round-trip claim's
hypothesis that commit shas are hex strings. -/
def isHexChar (c : Char) : Bool :=
  c.isDigit || ('a' ≤ c && c ≤ 'f') || ('A' ≤ c && c ≤ 'F')

theorem hexDigit_not_ws {c : Char} (h : isHexChar c = true) :
    c.isWhitespace = false := by
  cases hws : c.isWhitespace
  · rfl
  · exfalso
    simp only [Char.isWhitespace, Bool.or_eq_true, decide_eq_true_eq] at hws
    rcases hws with ((rfl | rfl) | rfl) | rfl <;> exact absurd h (by decide)

theorem parseLoop_blocks (shaOf : Str → Option Str) (branches : List Branch)
    (hsha : ∀ b ∈ branches, shaOf b.name = none)
    (hlocal : ∀ b ∈ branches, b.is_remote = false)
    (hname : ∀ b ∈ branches, b.name ≠ [] ∧ ∀ c ∈ b.name, c.isWhitespace = false)
    (hshaok : ∀ b ∈ branches, b.last_commit_sha ≠ [] ∧
      ∀ c ∈ b.last_commit_sha, c.isWhitespace = false) :
    ∀ ln, parseLoop (branches.flatMap (backupEntryLines shaOf)) ln =
      (branches.map (fun b => ⟨b.name, b.last_commit_sha⟩), []) := by
  induction branches with
  | nil => intro ln; simp [parseLoop]
  | cons b bs ih =>
    intro ln
    have hb : b ∈ b :: bs := by simp
    have hbs : shaOf b.name = none := hsha b hb
    have hbl : b.is_remote = false := hlocal b hb
    have hline2 : backupEntryLines shaOf b =
        [strL "# " ++ b.name,
         strL "git branch " ++ b.name ++ strL " " ++ b.last_commit_sha,
         []] := by
      simp only [backupEntryLines, hbs, hbl, Bool.false_eq_true, if_false,
        Option.getD_none]
    rw [List.flatMap_cons, hline2]
    simp only [List.cons_append, List.nil_append]
    rw [parseLoop_skip _ _ (by rfl)]
    have hsplit : splitWs (strL "git branch " ++ b.name ++ strL " " ++
        b.last_commit_sha) =
        [strL "git", strL "branch", b.name, b.last_commit_sha] := by
      have hassoc : strL "git branch " ++ b.name ++ strL " " ++ b.last_commit_sha =
          ['g', 'i', 't'] ++ ' ' :: (['b', 'r', 'a', 'n', 'c', 'h'] ++
            ' ' :: (b.name ++ ' ' :: b.last_commit_sha)) := by
        rw [show strL "git branch " =
          ['g', 'i', 't'] ++ ' ' :: (['b', 'r', 'a', 'n', 'c', 'h'] ++ [' '])
          from rfl, show strL " " = [' '] from rfl]
        simp [List.append_assoc]
      rw [hassoc,
        splitWs_token ['g', 'i', 't'] _ (by simp) (by decide),
        splitWs_token ['b', 'r', 'a', 'n', 'c', 'h'] _ (by simp) (by decide),
        splitWs_token b.name _ (hname b hb).1 (hname b hb).2,
        splitWs_last b.last_commit_sha (hshaok b hb).1 (hshaok b hb).2]
      rfl
    rw [parseLoop_git _ _ (by rfl)
      (List.isPrefixOf_iff_prefix.mpr
        ⟨b.name ++ strL " " ++ b.last_commit_sha, by simp⟩) hsplit]
    rw [parseLoop_skip _ _ (by rfl)]
    rw [ih (fun x hx => hsha x (by simp [hx])) (fun x hx => hlocal x (by simp [hx]))
      (fun x hx => hname x (by simp [hx])) (fun x hx => hshaok x (by simp [hx]))
      (ln + 3)]
    rfl

/-- C9: writing a manifest for an ordered list of local branches with
non-empty whitespace-free names and non-empty hex shas (resolution failing,
so the recorded sha is used) and parsing it back yields exactly those
(name, sha) entries in order, with no skipped lines. -/
theorem manifest_round_trip (shaOf : Str → Option Str)
    (created repoName cwd : Str) (branches : List Branch)
    (hsha : ∀ b ∈ branches, shaOf b.name = none)
    (hlocal : ∀ b ∈ branches, b.is_remote = false)
    (hname : ∀ b ∈ branches, b.name ≠ [] ∧ ∀ c ∈ b.name, c.isWhitespace = false)
    (hhex : ∀ b ∈ branches, b.last_commit_sha ≠ [] ∧
      ∀ c ∈ b.last_commit_sha, isHexChar c = true) :
    parse_backup_file
        (create_backup_file_lines shaOf created repoName cwd branches) =
      .ok ⟨branches.map (fun b => ⟨b.name, b.last_commit_sha⟩), []⟩ := by
  have hws : ∀ b ∈ branches, b.last_commit_sha ≠ [] ∧
      ∀ c ∈ b.last_commit_sha, c.isWhitespace = false :=
    fun b hb => ⟨(hhex b hb).1, fun c hc => hexDigit_not_ws ((hhex b hb).2 c hc)⟩
  unfold create_backup_file_lines backupHeaderLines
  simp only [List.cons_append, List.nil_append]
  simp only [parse_backup_file]
  rw [if_pos (by decide)]
  rw [parseLoop_skip _ _ (by rfl)]
  rw [parseLoop_skip _ _ (by rfl)]
  rw [parseLoop_skip _ _ (by rfl)]
  rw [parseLoop_skip _ _ (by rfl)]
  rw [parseLoop_skip _ _ (by rfl)]
  rw [parseLoop_skip _ _ (by rfl)]
  rw [parseLoop_skip _ _ (by rfl)]
  rw [parseLoop_blocks shaOf branches hsha hlocal hname hws 9]

/-- Witness for the manifest round trip on one concrete branch. -/
theorem manifest_round_trip_witness :
    parse_backup_file (create_backup_file_lines (fun _ => none) (strL "t")
        (strL "repo") (strL "/w")
        [⟨strL "feat/a", 45, true, false, strL "abc123", 0⟩]) =
      .ok ⟨[⟨strL "feat/a", strL "abc123"⟩], []⟩ :=
  manifest_round_trip (fun _ => none) (strL "t") (strL "repo") (strL "/w")
    [⟨strL "feat/a", 45, true, false, strL "abc123", 0⟩]
    (by decide) (by decide) (by decide) (by decide)

/-! Clean phases: delete_branches_with_backup and
delete_remote_branches_with_backup of src/main.rs, modelled as event
traces. -/

/-- Flag selection of git::delete_local_branch: force deletion flag
exactly when force. -/
def delete_local_branch_flag (force : Bool) : Str :=
  if force then strL "-D" else strL "-d"

/-- Observable events of a clean phase. -/
inductive CleanEvent where
  | writeManifest (lines : List Str)
  | manifestWriteFailed
  | deleteLocalAttempt (branch : Str) (flag : Str) (ok : Bool)
  | deleteRemoteAttempt (branch : Str) (ok : Bool)
deriving DecidableEq, Repr

/-- Whether an event is a deletion attempt. -/
def CleanEvent.isDelete : CleanEvent → Bool
  | .deleteLocalAttempt _ _ _ => true
  | .deleteRemoteAttempt _ _ => true
  | _ => false

/-- Environment of a clean run: outcomes of the fallible external actions. -/
structure CleanEnv where
  writeFails : Bool
  deleteLocalOk : Str → Bool
  deleteRemoteOk : Str → Bool
  shaOf : Str → Option Str
  created : Str
  repoName : Str
  cwd : Str

/-- delete_branches_with_backup of src/main.rs: create_backup_file runs
first and its failure aborts (the question-mark operator) before the
deletion loop; each branch is then deleted with the flag chosen by force
alone. The result is the event trace plus the Rust Result. -/
def delete_branches_with_backup (env : CleanEnv) (branches : List Branch)
    (force : Bool) : List CleanEvent × Except Unit Unit :=
  if env.writeFails then ([.manifestWriteFailed], .error ())
  else
    (.writeManifest (create_backup_file_lines env.shaOf env.created
        env.repoName env.cwd branches) ::
      branches.map (fun b =>
        .deleteLocalAttempt b.name (delete_local_branch_flag force)
          (env.deleteLocalOk b.name)),
      .ok ())

/-- delete_remote_branches_with_backup of src/main.rs: same shape, with
git push origin --delete per branch and no flag. -/
def delete_remote_branches_with_backup (env : CleanEnv)
    (branches : List Branch) : List CleanEvent × Except Unit Unit :=
  if env.writeFails then ([.manifestWriteFailed], .error ())
  else
    (.writeManifest (create_backup_file_lines env.shaOf env.created
        env.repoName env.cwd branches) ::
      branches.map (fun b =>
        .deleteRemoteAttempt b.name (env.deleteRemoteOk b.name)),
      .ok ())

/-- C1: in each clean phase the backup manifest is written before any
deletion is attempted: when the write fails the phase aborts with no
deletion attempt at all, and when it succeeds the first event is the
manifest write, the manifest contains every candidate branch's entry
lines, and every deletion attempt comes after it. -/
theorem clean_backup_before_delete (env : CleanEnv) (branches : List Branch)
    (force : Bool) :
    (env.writeFails = true →
      (∀ e ∈ (delete_branches_with_backup env branches force).1,
        e.isDelete = false) ∧
      (delete_branches_with_backup env branches force).2 = .error () ∧
      (∀ e ∈ (delete_remote_branches_with_backup env branches).1,
        e.isDelete = false) ∧
      (delete_remote_branches_with_backup env branches).2 = .error ()) ∧
    (env.writeFails = false →
      ∃ lines,
        (delete_branches_with_backup env branches force).1.head? =
          some (.writeManifest lines) ∧
        (delete_remote_branches_with_backup env branches).1.head? =
          some (.writeManifest lines) ∧
        ∀ b ∈ branches,
          (∀ line ∈ backupEntryLines env.shaOf b, line ∈ lines) ∧
          (.deleteLocalAttempt b.name (delete_local_branch_flag force)
              (env.deleteLocalOk b.name)) ∈
            (delete_branches_with_backup env branches force).1.tail ∧
          (.deleteRemoteAttempt b.name (env.deleteRemoteOk b.name)) ∈
            (delete_remote_branches_with_backup env branches).1.tail) := by
  constructor
  · intro hw
    simp only [delete_branches_with_backup, delete_remote_branches_with_backup,
      hw, if_true]
    refine ⟨?_, ?_, ?_, ?_⟩
    · intro e he
      simp only [List.mem_singleton] at he
      subst he
      rfl
    · trivial
    · intro e he
      simp only [List.mem_singleton] at he
      subst he
      rfl
    · trivial
  · intro hw
    simp only [delete_branches_with_backup, delete_remote_branches_with_backup,
      hw, Bool.false_eq_true, if_false]
    refine ⟨create_backup_file_lines env.shaOf env.created env.repoName
      env.cwd branches, by trivial, by trivial, ?_⟩
    intro b hb
    refine ⟨?_, ?_, ?_⟩
    · intro line hline
      unfold create_backup_file_lines
      rw [List.mem_append]
      right
      rw [List.mem_flatMap]
      exact ⟨b, hb, hline⟩
    · simp only [List.tail_cons]
      exact List.mem_map.mpr ⟨b, hb, rfl⟩
    · simp only [List.tail_cons]
      exact List.mem_map.mpr ⟨b, hb, rfl⟩

/-- Witness for backup-before-delete: a concrete successful phase whose
first event is the manifest write. -/
theorem clean_backup_before_delete_witness :
    ∃ lines,
      (delete_branches_with_backup
        ⟨false, fun _ => true, fun _ => true, fun _ => none,
          strL "t", strL "r", strL "/w"⟩
        [⟨strL "feat/a", 45, true, false, strL "abc123", 0⟩] false).1.head? =
      some (.writeManifest lines) := by
  obtain ⟨lines, h1, -⟩ :=
    (clean_backup_before_delete
      ⟨false, fun _ => true, fun _ => true, fun _ => none,
        strL "t", strL "r", strL "/w"⟩
      [⟨strL "feat/a", 45, true, false, strL "abc123", 0⟩] false).2 rfl
  exact ⟨lines, h1⟩

/-- The per-branch deletion flag the claim prescribes (refinement target,
written from the claim's words): the safe flag exactly when not force and
the branch is merged, the force flag otherwise. -/
def claimedLocalFlag (force : Bool) (b : Branch) : Str :=
  if !force && b.is_merged then strL "-d" else strL "-D"

/-- Unmerged local branch used in the flag-policy counterexample. -/
def unmergedBranch : Branch := ⟨strL "u", 40, false, false, strL "abc", 0⟩

/-- C5 counterexample: with force = false, the actual deletion of an
unmerged branch in delete_branches_with_backup uses the safe flag "-d"
(the flag depends on force alone), while the claim prescribes the force
flag "-D" for that case; the two policies disagree there. -/
theorem local_delete_flag_counterexample :
    (delete_branches_with_backup
        ⟨false, fun _ => true, fun _ => true, fun _ => none,
          strL "t", strL "r", strL "/w"⟩ [unmergedBranch] false).1.tail =
      [.deleteLocalAttempt (strL "u") (strL "-d") true] ∧
    delete_local_branch_flag false = strL "-d" ∧
    claimedLocalFlag false unmergedBranch = strL "-D" ∧
    delete_local_branch_flag false ≠ claimedLocalFlag false unmergedBranch := by
  refine ⟨?_, by decide, by decide, by decide⟩
  simp only [delete_branches_with_backup, Bool.false_eq_true, if_false,
    List.tail_cons, List.map_cons, List.map_nil]
  rfl

/-- C5 (amended): in the local phase of clean the deletion flag is chosen
by force alone — the safe flag exactly when force is false, regardless of
is_merged — and whenever force is false every local candidate is merged
(by the safety interlock), so an unmerged branch is never deleted at all
without force, rather than being deleted with the force flag. -/
theorem local_delete_flag_amended (env : CleanEnv) (min_age : Nat)
    (lo ro merged force : Bool) (prot excl : List Str) (all : List Branch)
    (hw : env.writeFails = false) :
    ∀ b ∈ cmdCleanLocal (cmdCleanFilter min_age lo ro merged force prot excl) all,
      (.deleteLocalAttempt b.name (if force then strL "-D" else strL "-d")
          (env.deleteLocalOk b.name)) ∈
        (delete_branches_with_backup env
          (cmdCleanLocal (cmdCleanFilter min_age lo ro merged force prot excl) all)
          force).1 ∧
      (force = false → b.is_merged = true) := by
  intro b hb
  constructor
  · simp only [delete_branches_with_backup, hw, Bool.false_eq_true, if_false]
    refine List.mem_cons_of_mem _ (List.mem_map.mpr ⟨b, hb, ?_⟩)
    rw [delete_local_branch_flag]
  · intro hf
    subst hf
    rw [cmdCleanLocal, mem_sort_branches, List.mem_filter] at hb
    have hc := hb.1
    rw [cmdCleanCandidates, mem_sort_branches, List.mem_filter] at hc
    exact matches_merged (by simp [cmdCleanFilter]) hc.2

/-- Witness for the amended flag policy at a concrete merged candidate with
force false: the safe-flag deletion event is in the trace. -/
theorem local_delete_flag_amended_witness :
    (.deleteLocalAttempt (strL "m") (if false then strL "-D" else strL "-d")
        true) ∈
      (delete_branches_with_backup
        ⟨false, fun _ => true, fun _ => true, fun _ => none,
          strL "t", strL "r", strL "/w"⟩
        (cmdCleanLocal (cmdCleanFilter 0 false false false false [] [])
          [⟨strL "m", 40, true, false, strL "abc", 0⟩]) false).1 :=
  (local_delete_flag_amended
    ⟨false, fun _ => true, fun _ => true, fun _ => none,
      strL "t", strL "r", strL "/w"⟩ 0 false false false false [] []
    [⟨strL "m", 40, true, false, strL "abc", 0⟩] rfl
    ⟨strL "m", 40, true, false, strL "abc", 0⟩ (by decide)).1

/-! Branch enumeration (list_local_branches / list_remote_branches of
src/git.rs). The for-each-ref output is modelled as its list of lines; the
merged check (a further git call per branch) as an oracle. -/

/-- Digit-accumulating loop of integer parsing. -/
def parseDigitsAux : Str → Nat → Option Nat
  | [], acc => some acc
  | c :: r, acc =>
    if c.isDigit then parseDigitsAux r (acc * 10 + (c.toNat - ('0').toNat))
    else none

/-- Models Rust `s.parse::<i64>().unwrap_or(0)`: optional sign then one or
more digits, anything else yields 0 (the i64 overflow edge is not
modelled; committer timestamps are far below it). -/
def parseIntOr0 (s : Str) : Int :=
  let core : Str → Option Nat := fun ds =>
    match ds with
    | [] => none
    | _ => parseDigitsAux ds 0
  match s with
  | '-' :: r => match core r with | some n => -(n : Int) | none => 0
  | '+' :: r => match core r with | some n => (n : Int) | none => 0
  | _ => match core s with | some n => (n : Int) | none => 0

/-- Days of a chrono Duration of `now - ts` seconds: whole days, truncated
toward zero. -/
def ageDays (now ts : Int) : Int := (now - ts).tdiv 86400

/-- Per-line handling of list_local_branches: split on the pipe, skip
malformed lines, skip the current branch, build the record. -/
def localLineBranches (current_branch : Str) (now : Int)
    (mergedOracle : Str → Bool) (line : Str) : List Branch :=
  match splitSep '|' line with
  | [name, tsStr, sha] =>
    if name == current_branch then []
    else
      let timestamp := parseIntOr0 tsStr
      [{ name := name
         age_days := ageDays now timestamp
         is_merged := mergedOracle name
         is_remote := false
         last_commit_sha := sha
         last_commit_date := timestamp }]
  | _ => []

/-- list_local_branches of src/git.rs. The default branch is a parameter
(used only through the merged oracle, as in the source). -/
def list_local_branches (_default_branch current_branch : Str) (now : Int)
    (lines : List Str) (mergedOracle : Str → Bool) : List Branch :=
  lines.flatMap (localLineBranches current_branch now mergedOracle)

/-- Per-line handling of list_remote_branches: skip malformed lines, skip
origin/HEAD and the origin-prefixed default branch. -/
def remoteLineBranches (default_branch : Str) (now : Int)
    (mergedOracle : Str → Bool) (line : Str) : List Branch :=
  match splitSep '|' line with
  | [name, tsStr, sha] =>
    if name == strL "origin/HEAD" || name == strL "origin/" ++ default_branch
    then []
    else
      let timestamp := parseIntOr0 tsStr
      [{ name := name
         age_days := ageDays now timestamp
         is_merged := mergedOracle name
         is_remote := true
         last_commit_sha := sha
         last_commit_date := timestamp }]
  | _ => []

/-- list_remote_branches of src/git.rs. -/
def list_remote_branches (default_branch : Str) (now : Int)
    (lines : List Str) (mergedOracle : Str → Bool) : List Branch :=
  lines.flatMap (remoteLineBranches default_branch now mergedOracle)

/-- list_branches of src/git.rs: local then remote. -/
def list_branches (default_branch current_branch : Str) (now : Int)
    (localLines remoteLines : List Str) (mergedOracle : Str → Bool) :
    List Branch :=
  list_local_branches default_branch current_branch now localLines mergedOracle ++
    list_remote_branches default_branch now remoteLines mergedOracle

/-- C4 counterexample: with default branch "main" and current branch
"feature", local enumeration of the ref line "main|0|abc" produces a Branch
record named "main" — the default branch in local form does appear, because
list_local_branches skips only the current branch. -/
theorem enumeration_default_branch_listed :
    strL "main" ∈
      (list_local_branches (strL "main") (strL "feature") 0
        [strL "main|0|abc"] (fun _ => false)).map (fun b => b.name) := by
  decide

theorem localLineBranches_name {current : Str} {now : Int}
    {oracle : Str → Bool} {line : Str} {b : Branch}
    (h : b ∈ localLineBranches current now oracle line) :
    b.is_remote = false ∧ b.name ≠ current := by
  unfold localLineBranches at h
  rcases hsp : splitSep '|' line with _ | ⟨n, _ | ⟨t, _ | ⟨s, _ | ⟨x, xs⟩⟩⟩⟩ <;>
    rw [hsp] at h <;> simp only [List.not_mem_nil] at h
  · by_cases hc : n == current
    · rw [if_pos hc] at h
      simp at h
    · rw [if_neg hc] at h
      simp only [List.mem_singleton] at h
      subst h
      exact ⟨rfl, by simpa using hc⟩

theorem remoteLineBranches_name {default_branch : Str} {now : Int}
    {oracle : Str → Bool} {line : Str} {b : Branch}
    (h : b ∈ remoteLineBranches default_branch now oracle line) :
    b.is_remote = true ∧ b.name ≠ strL "origin/HEAD" ∧
      b.name ≠ strL "origin/" ++ default_branch := by
  unfold remoteLineBranches at h
  rcases hsp : splitSep '|' line with _ | ⟨n, _ | ⟨t, _ | ⟨s, _ | ⟨x, xs⟩⟩⟩⟩ <;>
    rw [hsp] at h <;> simp only [List.not_mem_nil] at h
  · by_cases hc : (n == strL "origin/HEAD" || n == strL "origin/" ++ default_branch)
    · rw [if_pos hc] at h
      simp at h
    · rw [if_neg hc] at h
      simp only [List.mem_singleton] at h
      subst h
      simp only [Bool.or_eq_true, beq_iff_eq, not_or] at hc
      exact ⟨rfl, hc.1, hc.2⟩

/-- C4 (amended): every record from branch enumeration satisfies: a local
record is never the currently checked-out branch, and a remote record is
never origin/HEAD nor the origin-prefixed default branch. The default
branch in local form is excluded only when it happens to be the checked-out
branch; otherwise it is enumerated. -/
theorem enumeration_invariant_amended (default_branch current_branch : Str)
    (now : Int) (localLines remoteLines : List Str) (oracle : Str → Bool) :
    ∀ b ∈ list_branches default_branch current_branch now localLines
        remoteLines oracle,
      (b.is_remote = false → b.name ≠ current_branch) ∧
      (b.is_remote = true → b.name ≠ strL "origin/HEAD" ∧
        b.name ≠ strL "origin/" ++ default_branch) := by
  intro b hb
  rw [list_branches, List.mem_append] at hb
  rcases hb with hb | hb
  · rw [list_local_branches, List.mem_flatMap] at hb
    obtain ⟨line, _, hmem⟩ := hb
    obtain ⟨hr, hn⟩ := localLineBranches_name hmem
    exact ⟨fun _ => hn, fun ht => absurd (hr ▸ ht) (by simp)⟩
  · rw [list_remote_branches, List.mem_flatMap] at hb
    obtain ⟨line, _, hmem⟩ := hb
    obtain ⟨hr, h1, h2⟩ := remoteLineBranches_name hmem
    exact ⟨fun hf => absurd (hr ▸ hf) (by simp), fun _ => ⟨h1, h2⟩⟩

/-- Witness for the amended enumeration invariant at one concrete local
line and one concrete remote line. -/
theorem enumeration_invariant_amended_witness :
    (⟨strL "topic", 0, false, false, strL "abc", 0⟩ : Branch).name ≠
      strL "feature" :=
  (enumeration_invariant_amended (strL "main") (strL "feature") 0
    [strL "topic|0|abc"] [strL "origin/topic|0|abc"] (fun _ => false)
    ⟨strL "topic", 0, false, false, strL "abc", 0⟩ (by decide)).1 rfl

/-! Remote deletion confirmation (confirm_remote_deletion of src/ui.rs and
its call site in cmd_clean). The prompt text is modelled as character
lists; the user's input is a parameter. -/

/-- pluralize of src/ui.rs. -/
def pluralize (count : Nat) (singular plural : Str) : Str :=
  if count = 1 then singular else plural

/-- pluralize_branch of src/ui.rs. -/
def pluralize_branch (count : Nat) : Str :=
  pluralize count (strL "branch") (strL "branches")

/-- The exact phrase confirm_remote_deletion demands:
format!("delete N remote BRANCHWORD"). -/
def confirm_remote_expected (branches : List Branch) : Str :=
  strL "delete " ++ natStr branches.length ++ strL " remote " ++
    pluralize_branch branches.length

/-- confirm_remote_deletion of src/ui.rs: accept iff the trimmed input
equals the expected phrase verbatim. -/
def confirm_remote_deletion (branches : List Branch) (input : Str) : Bool :=
  trimStr input == confirm_remote_expected branches

/-- The remote-phase gate of cmd_clean: skip_confirm (the --yes flag) or
the typed confirmation. -/
def cmd_clean_remote_proceeds (skip_confirm : Bool) (branches : List Branch)
    (input : Str) : Bool :=
  skip_confirm || confirm_remote_deletion branches input

/-- C6: for a non-empty remote candidate set of size N (without --yes), the
remote phase proceeds iff the trimmed input is exactly
"delete N remote branch(es)" with the actual N and correct pluralization
("delete 1 remote branch", "delete 2 remote branches"); any other input,
such as "yes" for two branches, leads to no deletion. -/
theorem confirm_remote_deletion_spec (branches : List Branch) (input : Str)
    (_hne : branches ≠ []) :
    (cmd_clean_remote_proceeds false branches input = true ↔
      trimStr input = strL "delete " ++ natStr branches.length ++
        strL " remote " ++
        (if branches.length = 1 then strL "branch" else strL "branches")) ∧
    (branches.length = 1 →
      confirm_remote_expected branches = strL "delete 1 remote branch") ∧
    (branches.length = 2 →
      confirm_remote_expected branches = strL "delete 2 remote branches") ∧
    (branches.length = 2 →
      cmd_clean_remote_proceeds false branches (strL "yes") = false) := by
  have hexp : confirm_remote_expected branches =
      strL "delete " ++ natStr branches.length ++ strL " remote " ++
        (if branches.length = 1 then strL "branch" else strL "branches") := by
    unfold confirm_remote_expected pluralize_branch pluralize
    by_cases h1 : branches.length = 1 <;> simp [h1]
  refine ⟨?_, ?_, ?_, ?_⟩
  · rw [cmd_clean_remote_proceeds, Bool.false_or, confirm_remote_deletion,
      beq_iff_eq, hexp]
  · intro h1
    rw [hexp, h1]
    decide
  · intro h2
    rw [hexp, h2]
    decide
  · intro h2
    rw [cmd_clean_remote_proceeds, Bool.false_or, confirm_remote_deletion,
      hexp, h2]
    decide

/-- Witness for the remote confirmation at two concrete remote branches:
the exact phrase is demanded and "yes" is rejected. -/
theorem confirm_remote_deletion_spec_witness :
    ([(⟨strL "origin/a", 40, true, true, strL "s", 0⟩ : Branch),
      ⟨strL "origin/b", 41, true, true, strL "s", 0⟩] ≠
        ([] : List Branch)) ∧
    confirm_remote_expected
        [⟨strL "origin/a", 40, true, true, strL "s", 0⟩,
         ⟨strL "origin/b", 41, true, true, strL "s", 0⟩] =
      strL "delete 2 remote branches" ∧
    cmd_clean_remote_proceeds false
        [⟨strL "origin/a", 40, true, true, strL "s", 0⟩,
         ⟨strL "origin/b", 41, true, true, strL "s", 0⟩] (strL "yes") = false := by
  have h := confirm_remote_deletion_spec
    [⟨strL "origin/a", 40, true, true, strL "s", 0⟩,
     ⟨strL "origin/b", 41, true, true, strL "s", 0⟩] (strL "yes") (by simp)
  exact ⟨by simp, h.2.2.1 rfl, h.2.2.2 rfl⟩

/-! Restore resolver (restore_branch of src/backup.rs). Git queries and the
filesystem are supplied by an environment record; the only side effect,
branch creation, is returned as an explicit effect list. -/

/-- Result of a successful restore (src/backup.rs). -/
structure RestoreResult where
  original_name : Str
  restored_name : Str
  commit_sha : Str
  overwrote_existing : Bool
deriving DecidableEq, Repr

/-- Side effects of restore_branch: only branch creation mutates the
repository. -/
inductive RestoreEffect where
  | createBranch (name sha : Str) (force : Bool)
deriving DecidableEq, Repr

/-- Environment of a restore run: outcomes of the git queries, the
filesystem (path to file lines; also answers path.exists()), the repo
backup directory, and the newest-first manifests of the repository as
list_repo_backups returns them. -/
structure RestoreEnv where
  repoName : Str
  branchExists : Str → Bool
  commitExists : Str → Bool
  createOk : Bool
  isAbsolute : Str → Bool
  fileLines : Str → Option (List Str)
  backupDir : Str
  repoBackups : List Str

/-- Path join used when a bare manifest filename is resolved inside the
repository's backup directory. -/
def pathJoin (dir file : Str) : Str := dir ++ '/' :: file

/-- Manifest selector resolution of restore_branch: an absolute or
existing path is used as given, any other selector is joined to the
backup directory; with no selector the newest manifest is used, and no
manifests at all is NoBackupsFound. -/
def resolve_backup_path (env : RestoreEnv) (backup_file : Option Str) :
    Except RestoreError Str :=
  match backup_file with
  | some filename =>
    if env.isAbsolute filename || (env.fileLines filename).isSome then
      .ok filename
    else .ok (pathJoin env.backupDir filename)
  | none =>
    match env.repoBackups with
    | [] => .error (.noBackupsFound env.repoName)
    | p :: _ => .ok p

/-- restore_branch of src/backup.rs, with its checks in source order:
existing-target check, manifest resolution, parse, entry lookup, commit
check, then branch creation. -/
def restore_branch (env : RestoreEnv) (branch_name : Str)
    (backup_file : Option Str) (target_name : Option Str) (force : Bool) :
    Except RestoreError RestoreResult × List RestoreEffect :=
  let final_branch_name := target_name.getD branch_name
  let branch_exists := env.branchExists final_branch_name
  if branch_exists && !force then
    (.error (.branchExists final_branch_name), [])
  else
    match resolve_backup_path env backup_file with
    | .error e => (.error e, [])
    | .ok path =>
      match env.fileLines path with
      | none => (.error (.other (strL "failed to open backup file")), [])
      | some lines =>
        match parse_backup_file lines with
        | .error e => (.error e, [])
        | .ok parsed =>
          match parsed.entries.find? (fun e => e.name == branch_name) with
          | none =>
            (.error (.branchNotInBackup branch_name parsed.entries
              parsed.skipped_lines), [])
          | some entry =>
            if !env.commitExists entry.commit_sha then
              (.error (.commitNotFound branch_name entry.commit_sha), [])
            else if env.createOk then
              (.ok { original_name := branch_name
                     restored_name := final_branch_name
                     commit_sha := entry.commit_sha
                     overwrote_existing := branch_exists && force },
               [.createBranch final_branch_name entry.commit_sha force])
            else
              (.error (.other (strL "failed to create branch")),
               [.createBranch final_branch_name entry.commit_sha force])

/-- C2: restore_branch performs its checks strictly in source order with
no side effect before branch creation. With target the as-name if given
else the branch name: an existing target without force fails BranchExists;
with no selector the newest manifest is used, NoBackupsFound if none
exist; a parse failure (BackupCorrupted) propagates; a missing entry fails
BranchNotInBackup carrying all entries and skipped lines; a dead commit
fails CommitNotFound; every failing outcome creates nothing; and on
success the branch is created and the result carries original_name,
restored_name = target, the entry's sha, and
overwrote_existing = (target existed and force). -/
theorem restore_branch_spec (env : RestoreEnv) (branch_name : Str)
    (backup_file target_name : Option Str) (force : Bool) :
    (env.branchExists (target_name.getD branch_name) = true → force = false →
      restore_branch env branch_name backup_file target_name force =
        (.error (.branchExists (target_name.getD branch_name)), [])) ∧
    (backup_file = none → ∀ p ps, env.repoBackups = p :: ps →
      resolve_backup_path env backup_file = .ok p) ∧
    ((env.branchExists (target_name.getD branch_name) && !force) = false →
      backup_file = none → env.repoBackups = [] →
      restore_branch env branch_name backup_file target_name force =
        (.error (.noBackupsFound env.repoName), [])) ∧
    ((env.branchExists (target_name.getD branch_name) && !force) = false →
      ∀ path lines e, resolve_backup_path env backup_file = .ok path →
      env.fileLines path = some lines →
      parse_backup_file lines = .error e →
      restore_branch env branch_name backup_file target_name force =
        (.error e, [])) ∧
    ((env.branchExists (target_name.getD branch_name) && !force) = false →
      ∀ path lines parsed, resolve_backup_path env backup_file = .ok path →
      env.fileLines path = some lines →
      parse_backup_file lines = .ok parsed →
      (parsed.entries.find? (fun e => e.name == branch_name) = none →
        restore_branch env branch_name backup_file target_name force =
          (.error (.branchNotInBackup branch_name parsed.entries
            parsed.skipped_lines), [])) ∧
      (∀ entry, parsed.entries.find? (fun e => e.name == branch_name) =
          some entry →
        (env.commitExists entry.commit_sha = false →
          restore_branch env branch_name backup_file target_name force =
            (.error (.commitNotFound branch_name entry.commit_sha), [])) ∧
        (env.commitExists entry.commit_sha = true → env.createOk = true →
          restore_branch env branch_name backup_file target_name force =
            (.ok { original_name := branch_name
                   restored_name := target_name.getD branch_name
                   commit_sha := entry.commit_sha
                   overwrote_existing :=
                     env.branchExists (target_name.getD branch_name) && force },
             [.createBranch (target_name.getD branch_name) entry.commit_sha
                force])))) := by
  refine ⟨?_, ?_, ?_, ?_, ?_⟩
  · intro hex hf
    subst hf
    simp only [restore_branch, hex, Bool.not_false, Bool.and_self, if_true]
  · intro hbf p ps hrb
    subst hbf
    simp only [resolve_backup_path, hrb]
  · intro hno hbf hrb
    subst hbf
    simp only [restore_branch, hno, Bool.false_eq_true, if_false,
      resolve_backup_path, hrb]
  · intro hno path lines e hres hfl hparse
    simp only [restore_branch, hno, Bool.false_eq_true, if_false, hres, hfl,
      hparse]
  · intro hno path lines parsed hres hfl hparse
    constructor
    · intro hfind
      simp only [restore_branch, hno, Bool.false_eq_true, if_false, hres, hfl,
        hparse, hfind]
    · intro entry hfind
      constructor
      · intro hce
        simp only [restore_branch, hno, Bool.false_eq_true, if_false, hres,
          hfl, hparse, hfind, hce, Bool.not_false, if_true]
      · intro hce hok
        simp only [restore_branch, hno, Bool.false_eq_true, if_false, hres,
          hfl, hparse, hfind, hce, Bool.not_true, if_false, hok, if_true]

/-- Concrete restore environment for the witness: no existing branches,
one manifest with a single entry, all git operations succeeding. -/
def witnessRestoreEnv : RestoreEnv :=
  { repoName := strL "r"
    branchExists := fun _ => false
    commitExists := fun _ => true
    createOk := true
    isAbsolute := fun _ => false
    fileLines := fun p =>
      if p == strL "/b/m.txt" then
        some [strL "# deadbranch backup", strL "git branch old-x abc123"]
      else none
    backupDir := strL "/b"
    repoBackups := [strL "/b/m.txt"] }

/-- Witness for the restore resolver: a concrete successful restore with
no selector, target free, commit alive. -/
theorem restore_branch_spec_witness :
    restore_branch witnessRestoreEnv (strL "old-x") none none false =
      (.ok ⟨strL "old-x", strL "old-x", strL "abc123", false⟩,
       [.createBranch (strL "old-x") (strL "abc123") false]) := by
  have h := restore_branch_spec witnessRestoreEnv (strL "old-x") none none false
  exact ((h.2.2.2.2 rfl (strL "/b/m.txt")
      [strL "# deadbranch backup", strL "git branch old-x abc123"]
      ⟨[⟨strL "old-x", strL "abc123"⟩], []⟩ rfl rfl (by rfl)).2
    ⟨strL "old-x", strL "abc123"⟩ (by rfl)).2 rfl rfl

end Deadbranch
